import Mathlib

/-!
Shallow embedding of `twod_materials/pourbaix/startup.py`.

The module has three procedures:
  * `get_experimental_formation_energies` — turns the tabulated
    Kubaschewski enthalpy/entropy data into formation energies,
  * `relax_references` — lays out calculation directories (POSCAR /
    POTCAR files) for reference elements and their oxides,
  * `get_corrections` — parses completed vasprun.xml outputs and
    computes per-element energy corrections.

External collaborators (pymatgen `Composition` / `Vasprun`, the MPRester
database client, the relaxation workflow and the YAML data files) are
modelled as abstract inputs: a composition is an association list from
element symbols to rational amounts, a parsed vasprun is a record of the
quantities the code reads from it, and the data tables are parameters.
Python dicts are modelled as association lists with replace-in-place
insertion (preserving insertion order), matching dict semantics.
Energies are rationals; Python `round(x, 3)` is `round3`.
-/

namespace Pourbaix

/-- Python dict lookup `d[k]` (first, and only, binding of `k`). -/
def dictLookup {α : Type} (d : List (String × α)) (k : String) : Option α :=
  match d with
  | [] => none
  | p :: rest => if p.1 = k then some p.2 else dictLookup rest k

/-- Python dict assignment `d[k] = v`: replaces the value in place if the
key exists (keeping insertion order), otherwise appends the new binding. -/
def dictInsert {α : Type} (d : List (String × α)) (k : String) (v : α) :
    List (String × α) :=
  match d with
  | [] => [(k, v)]
  | p :: rest => if p.1 = k then (k, v) :: rest else p :: dictInsert rest k v

/-- The keys of a dict, in insertion order. -/
def dictKeys {α : Type} (d : List (String × α)) : List String :=
  d.map Prod.fst

/-- pymatgen `composition[element]`: the amount of the element, `0` when
the element is absent from the composition. -/
def compAmount (c : List (String × ℚ)) (s : String) : ℚ :=
  (dictLookup c s).getD 0

/-- Python `round(x, 3)`: round to three decimal places.  Rounding to
the nearest integer is `⌊x + 1/2⌋`; Python's banker's rounding differs
from this only at exact `.0005` ties, which no claim exercises. -/
def round3 (q : ℚ) : ℚ :=
  (Int.floor (q * 1000 + 1 / 2) : ℚ) / 1000

@[simp] theorem dictLookup_nil {α : Type} (k : String) :
    dictLookup ([] : List (String × α)) k = none := rfl

@[simp] theorem dictLookup_cons {α : Type} (p : String × α)
    (rest : List (String × α)) (k : String) :
    dictLookup (p :: rest) k =
      if p.1 = k then some p.2 else dictLookup rest k := rfl

@[simp] theorem dictInsert_nil {α : Type} (k : String) (v : α) :
    dictInsert ([] : List (String × α)) k v = [(k, v)] := rfl

@[simp] theorem dictInsert_cons {α : Type} (p : String × α)
    (rest : List (String × α)) (k : String) (v : α) :
    dictInsert (p :: rest) k v =
      if p.1 = k then (k, v) :: rest else p :: dictInsert rest k v := rfl

/-- Looking up the key just inserted yields the inserted value. -/
theorem dictLookup_dictInsert_self {α : Type} (d : List (String × α))
    (k : String) (v : α) : dictLookup (dictInsert d k v) k = some v := by
  induction d with
  | nil => simp
  | cons p rest ih =>
    by_cases h : p.1 = k <;> simp [h, ih]

/-- Inserting one key leaves lookups of other keys unchanged. -/
theorem dictLookup_dictInsert_ne {α : Type} (d : List (String × α))
    (k k' : String) (v : α) (h : k ≠ k') :
    dictLookup (dictInsert d k v) k' = dictLookup d k' := by
  induction d with
  | nil => simp [h]
  | cons p rest ih =>
    by_cases hp : p.1 = k
    · simp [hp, h]
    · simp only [dictInsert_cons, if_neg hp, dictLookup_cons]
      by_cases hp' : p.1 = k' <;> simp [hp', ih]

/-- A key is in the dict exactly when its lookup succeeds. -/
theorem dictLookup_eq_none_iff {α : Type} (d : List (String × α))
    (k : String) : dictLookup d k = none ↔ k ∉ dictKeys d := by
  induction d with
  | nil => simp [dictKeys]
  | cons p rest ih =>
    by_cases h : p.1 = k
    · simp [dictKeys, h]
    · have h' : k ≠ p.1 := fun he => h he.symm
      simp [dictKeys, h, h', ih]

/-- Membership in the keys after an insertion. -/
theorem mem_dictKeys_dictInsert {α : Type} (d : List (String × α))
    (k x : String) (v : α) :
    x ∈ dictKeys (dictInsert d k v) ↔ x ∈ dictKeys d ∨ x = k := by
  induction d with
  | nil => simp [dictKeys]
  | cons p rest ih =>
    by_cases h : p.1 = k <;> simp [dictKeys, h] at * <;> tauto

/-- Inserting a fresh key appends the binding at the end. -/
theorem dictInsert_of_not_mem {α : Type} (d : List (String × α))
    (k : String) (v : α) (h : k ∉ dictKeys d) :
    dictInsert d k v = d ++ [(k, v)] := by
  induction d with
  | nil => simp
  | cons p rest ih =>
    simp only [dictKeys, List.map_cons, List.mem_cons] at h
    push_neg at h
    have h' : p.1 ≠ k := fun he => h.1 he.symm
    simp [h', ih (by simpa [dictKeys] using h.2)]

/-! ### `get_experimental_formation_energies`

The YAML table maps compound formulas to `delta_H`, `S_cmpd`, `S_elt`;
`Composition(compound)` (external pymatgen) parses the formula into a
composition.  An entry of the table is modelled with the composition
already parsed. -/

/-- One row of `experimental_oxide_formation_energies.yaml`, with the
compound formula replaced by its parsed composition. -/
structure OxideData where
  composition : List (String × ℚ)
  delta_H : ℚ
  S_cmpd : ℚ
  S_elt : ℚ
deriving DecidableEq, Repr

/-- Models `[e for e in composition if e.symbol != 'O']`: the non-oxygen
elements of a composition, in iteration order. -/
def nonOxygen (c : List (String × ℚ)) : List String :=
  (c.filter (fun p => p.1 ≠ "O")).map Prod.fst

/-- The `...[0]` of the list above: `none` models the `IndexError`
raised when the compound contains only oxygen. -/
def firstNonOxygen (c : List (String × ℚ)) : Option String :=
  (nonOxygen c).head?

/-- Entropy in atomic O, in cal/mol.degree. -/
def oxygen_entropy : ℚ := 38.48

/-- The formation-energy expression computed for one table row once the
non-oxygen element `elt` has been singled out:
`(delta_H - (S_cmpd - (S_elt*n_elt + 38.48*n_O)) * 298 / 1000) / 22.06035`. -/
def formationEnergy (d : OxideData) (elt : String) : ℚ :=
  let delta_H := d.delta_H
  let delta_S :=
    (d.S_cmpd
      - (d.S_elt * compAmount d.composition elt
          + oxygen_entropy * compAmount d.composition "O")) * 298 / 1000
  (delta_H - delta_S) / 22.06035

/-- The loop body of `get_experimental_formation_energies`, accumulating
the `formation_energies` dict; `none` models the uncaught `IndexError`
when some compound has no non-oxygen element. -/
def formationLoop : List OxideData → List (String × ℚ) →
    Option (List (String × ℚ))
  | [], acc => some acc
  | d :: rest, acc =>
    match firstNonOxygen d.composition with
    | none => none
    | some elt => formationLoop rest (dictInsert acc elt (formationEnergy d elt))

/-- The procedure `get_experimental_formation_energies`: iterate over the data table,
deriving a formation energy per compound, keyed by the compound's first
non-oxygen element. -/
def get_experimental_formation_energies (data : List OxideData) :
    Option (List (String × ℚ)) :=
  formationLoop data []

/-- The non-oxygen element singled out for a table row (meaningful when
the row has at least one non-oxygen element). -/
def eltOf (d : OxideData) : String :=
  (firstNonOxygen d.composition).getD ""

theorem dictKeys_append {α : Type} (a b : List (String × α)) :
    dictKeys (a ++ b) = dictKeys a ++ dictKeys b :=
  List.map_append _ a b

/-- In a dict with pairwise-distinct keys, every binding is found by
lookup. -/
theorem dictLookup_of_mem_nodup {α : Type} (l : List (String × α))
    (hn : (dictKeys l).Nodup) (k : String) (v : α) (h : (k, v) ∈ l) :
    dictLookup l k = some v := by
  induction l with
  | nil => simp at h
  | cons p rest ih =>
    simp only [dictKeys, List.map_cons, List.nodup_cons] at hn
    rcases List.mem_cons.1 h with h0 | h0
    · subst h0; simp
    · have hk : k ∈ dictKeys rest := by
        simpa [dictKeys] using List.mem_map_of_mem Prod.fst h0
      have hne : p.1 ≠ k := fun he => hn.1 (he ▸ hk)
      simp [hne, ih hn.2 h0]

/-- Unfolding of `formationLoop` when every row has a non-oxygen element,
all the keys are fresh and pairwise distinct: the loop succeeds and
appends one binding per row. -/
theorem formationLoop_eq (data : List OxideData) (acc : List (String × ℚ))
    (h1 : ∀ d ∈ data, firstNonOxygen d.composition = some (eltOf d))
    (h2 : ∀ d ∈ data, eltOf d ∉ dictKeys acc)
    (h3 : (data.map eltOf).Nodup) :
    formationLoop data acc =
      some (acc ++ data.map (fun d => (eltOf d, formationEnergy d (eltOf d)))) := by
  induction data generalizing acc with
  | nil => simp [formationLoop]
  | cons d rest ih =>
    simp only [List.map_cons, List.nodup_cons] at h3
    have hd := h1 d (List.mem_cons_self d rest)
    have hfresh := h2 d (List.mem_cons_self d rest)
    rw [formationLoop, hd]
    show formationLoop rest
      (dictInsert acc (eltOf d) (formationEnergy d (eltOf d))) = _
    rw [dictInsert_of_not_mem _ _ _ hfresh]
    have hfresh' : ∀ x ∈ rest,
        eltOf x ∉ dictKeys (acc ++ [(eltOf d, formationEnergy d (eltOf d))]) := by
      intro x hx
      rw [dictKeys_append]
      simp only [List.mem_append, dictKeys, List.map_cons, List.map_nil,
        List.mem_singleton]
      rintro (hmem | hmem)
      · exact h2 x (List.mem_cons_of_mem d hx) hmem
      · exact h3.1 (hmem ▸ List.mem_map_of_mem eltOf hx)
    rw [ih (acc ++ [(eltOf d, formationEnergy d (eltOf d))])
      (fun x hx => h1 x (List.mem_cons_of_mem d hx)) hfresh' h3.2]
    simp

/-- Claim C1: for a table in which every compound has exactly one
non-oxygen element (with distinct elements across compounds),
`get_experimental_formation_energies` succeeds, its keys are exactly
those elements, and each element maps to
`(delta_H - (S_cmpd - (S_elt*n_elt + 38.48*n_O)) * 298 / 1000) / 22.06035`. -/
theorem claim_C1 (data : List OxideData)
    (hone : ∀ d ∈ data, (nonOxygen d.composition).length = 1)
    (hnd : (data.map eltOf).Nodup) :
    ∃ res, get_experimental_formation_energies data = some res ∧
      dictKeys res = data.map eltOf ∧
      ∀ d ∈ data, dictLookup res (eltOf d) =
        some ((d.delta_H
          - (d.S_cmpd - (d.S_elt * compAmount d.composition (eltOf d)
              + 38.48 * compAmount d.composition "O")) * 298 / 1000)
          / 22.06035) := by
  have h1 : ∀ d ∈ data, firstNonOxygen d.composition = some (eltOf d) := by
    intro d hd
    have := hone d hd
    rcases List.length_eq_one.1 this with ⟨e, he⟩
    simp [eltOf, firstNonOxygen, he]
  refine ⟨data.map (fun d => (eltOf d, formationEnergy d (eltOf d))), ?_, ?_, ?_⟩
  · unfold get_experimental_formation_energies
    rw [formationLoop_eq data [] h1 (by simp [dictKeys]) hnd]
    simp
  · simp [dictKeys, Function.comp]
  · intro d hd
    have hmem : (eltOf d, formationEnergy d (eltOf d)) ∈
        data.map (fun d => (eltOf d, formationEnergy d (eltOf d))) :=
      List.mem_map_of_mem _ hd
    have hkeys : (dictKeys (data.map
        (fun d => (eltOf d, formationEnergy d (eltOf d))))).Nodup := by
      simpa [dictKeys, Function.comp] using hnd
    rw [dictLookup_of_mem_nodup _ hkeys _ _ hmem]
    simp [formationEnergy, oxygen_entropy]

/-- Witness for C1 at a concrete one-row table (TiO2). -/
theorem claim_C1_witness :
    ∃ res, get_experimental_formation_energies
        [⟨[("Ti", 1), ("O", 2)], -225.8, 12.03, 7.32⟩] = some res ∧
      dictKeys res = [⟨[("Ti", 1), ("O", 2)], -225.8, 12.03, 7.32⟩].map eltOf ∧
      ∀ d ∈ [(⟨[("Ti", 1), ("O", 2)], -225.8, 12.03, 7.32⟩ : OxideData)],
        dictLookup res (eltOf d) =
          some ((d.delta_H
            - (d.S_cmpd - (d.S_elt * compAmount d.composition (eltOf d)
                + 38.48 * compAmount d.composition "O")) * 298 / 1000)
            / 22.06035) :=
  claim_C1 _ (by decide) (by decide)

/-! ### `relax_references`

The filesystem is modelled relative to the starting directory: `cwd` is
the current path (a stack of directory names), `dirs` the set of
existing directories, and `poscars` / `potcars` record the files the
procedure writes (`POSCAR` content is identified by the material id the
structure was fetched with; a `POTCAR` by its list of potential types).
`REFERENCE_MPIDS` is the parameter `refs`, giving each element's
`element` and `oxide` material ids.  The external `relax` workflow call
touches nothing the claims observe and is not recorded. -/

/-- Filesystem-and-process state for `relax_references`. -/
structure FSState where
  cwd : List String
  dirs : List (List String)
  poscars : List (List String × String)
  potcars : List (List String × List String)
deriving DecidableEq, Repr

/-- Models `element.split('_')[0]`: the first field of splitting on `'_'`,
i.e. the longest prefix of the string containing no underscore
(Python `split` always yields a first part). -/
def splitUnderscore (element : String) : String :=
  String.mk (element.toList.takeWhile (fun c => c ≠ '_'))

/-- The special-cases list `['O', 'S', 'F', 'Cl', 'Br', 'I']`. -/
def special_cases : List String := ["O", "S", "F", "Cl", "Br", "I"]

/-- Models `if not os.path.isdir(name): os.mkdir(name)`. -/
def mkdirIfAbsent (st : FSState) (name : String) : FSState :=
  if st.cwd ++ [name] ∈ st.dirs then st
  else { st with dirs := (st.cwd ++ [name]) :: st.dirs }

/-- Models `os.chdir(name)` into a subdirectory. -/
def chdirInto (st : FSState) (name : String) : FSState :=
  { st with cwd := st.cwd ++ [name] }

/-- Models `os.chdir('../')`. -/
def chdirUp (st : FSState) : FSState :=
  { st with cwd := st.cwd.dropLast }

/-- Models `s.to('POSCAR', 'POSCAR')` after fetching structure `mpid`. -/
def writePoscar (st : FSState) (mpid : String) : FSState :=
  { st with poscars := (st.cwd, mpid) :: st.poscars }

/-- Models `utl.write_potcar(types=...)`. -/
def writePotcar (st : FSState) (types : List String) : FSState :=
  { st with potcars := (st.cwd, types) :: st.potcars }

/-- The `for element in potcar_types: if element.split('_')[0] == 'O':
... break / else:` search for an oxygen potential. -/
def findOxygenPotcar : List String → Option String
  | [] => none
  | e :: rest => if splitUnderscore e = "O" then some e else findOxygenPotcar rest

/-- One iteration of the main loop of `relax_references`: element
directory with POSCAR and POTCAR, then (for non-special elements) the
`oxide` subdirectory with its POSCAR and two-type POTCAR. -/
def processElement (refs : String → String × String) (oxygen_potcar : String)
    (element : String) (st : FSState) : FSState :=
  let elt := splitUnderscore element
  let st1 := chdirInto (mkdirIfAbsent st elt) elt
  let st2 := writePotcar (writePoscar st1 (refs elt).1) [element]
  if elt ∈ special_cases then chdirUp st2
  else
    let st3 := chdirInto (mkdirIfAbsent st2 "oxide") "oxide"
    let st4 := writePotcar (writePoscar st3 (refs elt).2) [element, oxygen_potcar]
    chdirUp (chdirUp st4)

/-- The main loop of `relax_references`. -/
def relaxLoop (refs : String → String × String) (oxygen_potcar : String) :
    List String → FSState → FSState
  | [], st => st
  | e :: rest, st =>
    relaxLoop refs oxygen_potcar rest (processElement refs oxygen_potcar e st)

/-- The procedure `relax_references`: choose the oxygen potential (appending `'O_s'`
to the caller's list when none is given), then run the setup loop.
Returns the (possibly mutated) `potcar_types` list and the final state. -/
def relax_references (potcar_types : List String)
    (refs : String → String × String) (init : FSState) :
    List String × FSState :=
  match findOxygenPotcar potcar_types with
  | some p => (potcar_types, relaxLoop refs p potcar_types init)
  | none => (potcar_types ++ ["O_s"],
      relaxLoop refs "O_s" (potcar_types ++ ["O_s"]) init)

@[simp] theorem mkdirIfAbsent_cwd (st : FSState) (n : String) :
    (mkdirIfAbsent st n).cwd = st.cwd := by
  unfold mkdirIfAbsent; split <;> rfl

@[simp] theorem mkdirIfAbsent_poscars (st : FSState) (n : String) :
    (mkdirIfAbsent st n).poscars = st.poscars := by
  unfold mkdirIfAbsent; split <;> rfl

@[simp] theorem mkdirIfAbsent_potcars (st : FSState) (n : String) :
    (mkdirIfAbsent st n).potcars = st.potcars := by
  unfold mkdirIfAbsent; split <;> rfl

theorem mem_mkdirIfAbsent_dirs (st : FSState) (n : String) (p : List String) :
    p ∈ (mkdirIfAbsent st n).dirs ↔ p ∈ st.dirs ∨ p = st.cwd ++ [n] := by
  unfold mkdirIfAbsent
  split <;> rename_i h
  · constructor
    · exact fun hp => Or.inl hp
    · rintro (hp | hp)
      · exact hp
      · exact hp ▸ h
  · simp [or_comm]

theorem self_mem_mkdirIfAbsent_dirs (st : FSState) (n : String) :
    st.cwd ++ [n] ∈ (mkdirIfAbsent st n).dirs :=
  (mem_mkdirIfAbsent_dirs st n _).2 (Or.inr rfl)

@[simp] theorem dropLast_append_singleton (l : List String) (a : String) :
    (l ++ [a]).dropLast = l := by
  simp

/-- Every loop iteration returns to the directory it started in. -/
theorem processElement_cwd (refs : String → String × String)
    (op e : String) (st : FSState) :
    (processElement refs op e st).cwd = st.cwd := by
  by_cases h : splitUnderscore e ∈ special_cases <;>
    simp [processElement, h, chdirInto, chdirUp, writePoscar, writePotcar]

theorem relaxLoop_cwd (refs : String → String × String) (op : String)
    (L : List String) (st : FSState) :
    (relaxLoop refs op L st).cwd = st.cwd := by
  induction L generalizing st with
  | nil => rfl
  | cons e rest ih => rw [relaxLoop, ih, processElement_cwd]

@[simp] theorem chdirInto_cwd (st : FSState) (n : String) :
    (chdirInto st n).cwd = st.cwd ++ [n] := rfl

@[simp] theorem chdirInto_dirs (st : FSState) (n : String) :
    (chdirInto st n).dirs = st.dirs := rfl

@[simp] theorem chdirInto_poscars (st : FSState) (n : String) :
    (chdirInto st n).poscars = st.poscars := rfl

@[simp] theorem chdirInto_potcars (st : FSState) (n : String) :
    (chdirInto st n).potcars = st.potcars := rfl

@[simp] theorem chdirUp_dirs (st : FSState) : (chdirUp st).dirs = st.dirs := rfl

@[simp] theorem chdirUp_poscars (st : FSState) :
    (chdirUp st).poscars = st.poscars := rfl

@[simp] theorem chdirUp_potcars (st : FSState) :
    (chdirUp st).potcars = st.potcars := rfl

@[simp] theorem writePoscar_cwd (st : FSState) (m : String) :
    (writePoscar st m).cwd = st.cwd := rfl

@[simp] theorem writePoscar_dirs (st : FSState) (m : String) :
    (writePoscar st m).dirs = st.dirs := rfl

@[simp] theorem writePoscar_poscars (st : FSState) (m : String) :
    (writePoscar st m).poscars = (st.cwd, m) :: st.poscars := rfl

@[simp] theorem writePoscar_potcars (st : FSState) (m : String) :
    (writePoscar st m).potcars = st.potcars := rfl

@[simp] theorem writePotcar_cwd (st : FSState) (t : List String) :
    (writePotcar st t).cwd = st.cwd := rfl

@[simp] theorem writePotcar_dirs (st : FSState) (t : List String) :
    (writePotcar st t).dirs = st.dirs := rfl

@[simp] theorem writePotcar_poscars (st : FSState) (t : List String) :
    (writePotcar st t).poscars = st.poscars := rfl

@[simp] theorem writePotcar_potcars (st : FSState) (t : List String) :
    (writePotcar st t).potcars = (st.cwd, t) :: st.potcars := rfl

/-- The directories present after one loop iteration: the old ones, the
element directory, and (for non-special elements) its oxide
subdirectory. -/
theorem mem_processElement_dirs (refs : String → String × String)
    (op e : String) (st : FSState) (p : List String) :
    p ∈ (processElement refs op e st).dirs ↔
      p ∈ st.dirs ∨ p = st.cwd ++ [splitUnderscore e] ∨
        (splitUnderscore e ∉ special_cases ∧
          p = st.cwd ++ [splitUnderscore e, "oxide"]) := by
  by_cases h : splitUnderscore e ∈ special_cases <;>
    simp [processElement, h, mem_mkdirIfAbsent_dirs] <;> tauto

/-- The POSCAR records after one loop iteration. -/
theorem mem_processElement_poscars (refs : String → String × String)
    (op e : String) (st : FSState) (r : List String × String) :
    r ∈ (processElement refs op e st).poscars ↔
      r ∈ st.poscars ∨
        r = (st.cwd ++ [splitUnderscore e], (refs (splitUnderscore e)).1) ∨
        (splitUnderscore e ∉ special_cases ∧
          r = (st.cwd ++ [splitUnderscore e, "oxide"], (refs (splitUnderscore e)).2)) := by
  by_cases h : splitUnderscore e ∈ special_cases <;>
    simp [processElement, h] <;> tauto

/-- The POTCAR records after one loop iteration: the element directory
gets a one-type POTCAR, the oxide directory a two-type POTCAR ending in
the oxygen potential. -/
theorem mem_processElement_potcars (refs : String → String × String)
    (op e : String) (st : FSState) (r : List String × List String) :
    r ∈ (processElement refs op e st).potcars ↔
      r ∈ st.potcars ∨
        r = (st.cwd ++ [splitUnderscore e], [e]) ∨
        (splitUnderscore e ∉ special_cases ∧
          r = (st.cwd ++ [splitUnderscore e, "oxide"], [e, op])) := by
  by_cases h : splitUnderscore e ∈ special_cases <;>
    simp [processElement, h] <;> tauto

/-- Directories after the whole loop. -/
theorem mem_relaxLoop_dirs (refs : String → String × String) (op : String)
    (L : List String) (st : FSState) (p : List String) :
    p ∈ (relaxLoop refs op L st).dirs ↔
      p ∈ st.dirs ∨ ∃ e ∈ L, p = st.cwd ++ [splitUnderscore e] ∨
        (splitUnderscore e ∉ special_cases ∧
          p = st.cwd ++ [splitUnderscore e, "oxide"]) := by
  induction L generalizing st with
  | nil => simp [relaxLoop]
  | cons e rest ih =>
    rw [relaxLoop, ih, mem_processElement_dirs, processElement_cwd]
    simp only [List.mem_cons]
    constructor
    · rintro ((h | h | h) | ⟨x, hx, h⟩)
      · exact Or.inl h
      · exact Or.inr ⟨e, Or.inl rfl, Or.inl h⟩
      · exact Or.inr ⟨e, Or.inl rfl, Or.inr h⟩
      · exact Or.inr ⟨x, Or.inr hx, h⟩
    · rintro (h | ⟨x, (hx | hx), h⟩)
      · exact Or.inl (Or.inl h)
      · subst hx
        rcases h with h | h
        · exact Or.inl (Or.inr (Or.inl h))
        · exact Or.inl (Or.inr (Or.inr h))
      · exact Or.inr ⟨x, hx, h⟩

/-- POSCAR records after the whole loop. -/
theorem mem_relaxLoop_poscars (refs : String → String × String) (op : String)
    (L : List String) (st : FSState) (r : List String × String) :
    r ∈ (relaxLoop refs op L st).poscars ↔
      r ∈ st.poscars ∨ ∃ e ∈ L,
        r = (st.cwd ++ [splitUnderscore e], (refs (splitUnderscore e)).1) ∨
        (splitUnderscore e ∉ special_cases ∧
          r = (st.cwd ++ [splitUnderscore e, "oxide"], (refs (splitUnderscore e)).2)) := by
  induction L generalizing st with
  | nil => simp [relaxLoop]
  | cons e rest ih =>
    rw [relaxLoop, ih, mem_processElement_poscars, processElement_cwd]
    simp only [List.mem_cons]
    constructor
    · rintro ((h | h | h) | ⟨x, hx, h⟩)
      · exact Or.inl h
      · exact Or.inr ⟨e, Or.inl rfl, Or.inl h⟩
      · exact Or.inr ⟨e, Or.inl rfl, Or.inr h⟩
      · exact Or.inr ⟨x, Or.inr hx, h⟩
    · rintro (h | ⟨x, (hx | hx), h⟩)
      · exact Or.inl (Or.inl h)
      · subst hx
        rcases h with h | h
        · exact Or.inl (Or.inr (Or.inl h))
        · exact Or.inl (Or.inr (Or.inr h))
      · exact Or.inr ⟨x, hx, h⟩

/-- POTCAR records after the whole loop. -/
theorem mem_relaxLoop_potcars (refs : String → String × String) (op : String)
    (L : List String) (st : FSState) (r : List String × List String) :
    r ∈ (relaxLoop refs op L st).potcars ↔
      r ∈ st.potcars ∨ ∃ e ∈ L,
        r = (st.cwd ++ [splitUnderscore e], [e]) ∨
        (splitUnderscore e ∉ special_cases ∧
          r = (st.cwd ++ [splitUnderscore e, "oxide"], [e, op])) := by
  induction L generalizing st with
  | nil => simp [relaxLoop]
  | cons e rest ih =>
    rw [relaxLoop, ih, mem_processElement_potcars, processElement_cwd]
    simp only [List.mem_cons]
    constructor
    · rintro ((h | h | h) | ⟨x, hx, h⟩)
      · exact Or.inl h
      · exact Or.inr ⟨e, Or.inl rfl, Or.inl h⟩
      · exact Or.inr ⟨e, Or.inl rfl, Or.inr h⟩
      · exact Or.inr ⟨x, Or.inr hx, h⟩
    · rintro (h | ⟨x, (hx | hx), h⟩)
      · exact Or.inl (Or.inl h)
      · subst hx
        rcases h with h | h
        · exact Or.inl (Or.inr (Or.inl h))
        · exact Or.inl (Or.inr (Or.inr h))
      · exact Or.inr ⟨x, hx, h⟩

/-- A path of the form `c ++ [s, "oxide"]` can only appear among the
directories created by the loop through a non-special element `s`. -/
theorem special_oxide_not_created (refs : String → String × String)
    (op : String) (L : List String) (st : FSState) (s : String)
    (hs : s ∈ special_cases)
    (habs : st.cwd ++ [s, "oxide"] ∉ st.dirs) :
    st.cwd ++ [s, "oxide"] ∉ (relaxLoop refs op L st).dirs := by
  intro hmem
  rcases (mem_relaxLoop_dirs refs op L st _).1 hmem with h | ⟨e, _, h | ⟨hns, h⟩⟩
  · exact habs h
  · have := List.append_cancel_left h
    simp at this
  · have := List.append_cancel_left h
    have hse : s = splitUnderscore e := by
      injection this with h1 _
    exact hns (hse ▸ hs)

/-- Claim C5: for every entry of `potcar_types`, `relax_references`
ensures a directory named by the element symbol containing the element's
reference POSCAR; non-special elements additionally get an `oxide`
subdirectory with the reference oxide's POSCAR, while special elements
(`O`, `S`, `F`, `Cl`, `Br`, `I`) get no oxide subdirectory. -/
theorem claim_C5 (pts : List String) (refs : String → String × String)
    (init : FSState) (element : String) (hmem : element ∈ pts) :
    init.cwd ++ [splitUnderscore element] ∈ (relax_references pts refs init).2.dirs ∧
    (init.cwd ++ [splitUnderscore element], (refs (splitUnderscore element)).1) ∈
      (relax_references pts refs init).2.poscars ∧
    (splitUnderscore element ∉ special_cases →
      init.cwd ++ [splitUnderscore element, "oxide"] ∈
        (relax_references pts refs init).2.dirs ∧
      (init.cwd ++ [splitUnderscore element, "oxide"],
        (refs (splitUnderscore element)).2) ∈
        (relax_references pts refs init).2.poscars) ∧
    (splitUnderscore element ∈ special_cases →
      init.cwd ++ [splitUnderscore element, "oxide"] ∉ init.dirs →
      init.cwd ++ [splitUnderscore element, "oxide"] ∉
        (relax_references pts refs init).2.dirs) := by
  have main : ∀ (op : String) (L : List String), element ∈ L →
      init.cwd ++ [splitUnderscore element] ∈ (relaxLoop refs op L init).dirs ∧
      (init.cwd ++ [splitUnderscore element], (refs (splitUnderscore element)).1) ∈
        (relaxLoop refs op L init).poscars ∧
      (splitUnderscore element ∉ special_cases →
        init.cwd ++ [splitUnderscore element, "oxide"] ∈
          (relaxLoop refs op L init).dirs ∧
        (init.cwd ++ [splitUnderscore element, "oxide"],
          (refs (splitUnderscore element)).2) ∈
          (relaxLoop refs op L init).poscars) ∧
      (splitUnderscore element ∈ special_cases →
        init.cwd ++ [splitUnderscore element, "oxide"] ∉ init.dirs →
        init.cwd ++ [splitUnderscore element, "oxide"] ∉
          (relaxLoop refs op L init).dirs) := by
    intro op L hL
    refine ⟨?_, ?_, ?_, ?_⟩
    · exact (mem_relaxLoop_dirs refs op L init _).2
        (Or.inr ⟨element, hL, Or.inl rfl⟩)
    · exact (mem_relaxLoop_poscars refs op L init _).2
        (Or.inr ⟨element, hL, Or.inl rfl⟩)
    · intro hns
      constructor
      · exact (mem_relaxLoop_dirs refs op L init _).2
          (Or.inr ⟨element, hL, Or.inr ⟨hns, by simp⟩⟩)
      · exact (mem_relaxLoop_poscars refs op L init _).2
          (Or.inr ⟨element, hL, Or.inr ⟨hns, by simp⟩⟩)
    · intro hs habs
      exact special_oxide_not_created refs op L init _ hs habs
  unfold relax_references
  cases hfind : findOxygenPotcar pts with
  | some p => exact main p pts hmem
  | none => exact main "O_s" (pts ++ ["O_s"]) (List.mem_append_left _ hmem)

/-- Witness for C5: one non-special element, starting from an empty
filesystem. -/
theorem claim_C5_witness :
    ("Na_pv" : String) ∈ ["Na_pv"] ∧
    (let refs : String → String × String := fun _ => ("mp-el", "mp-ox")
     let init : FSState := ⟨[], [], [], []⟩
     init.cwd ++ [splitUnderscore "Na_pv"] ∈
        (relax_references ["Na_pv"] refs init).2.dirs ∧
     (init.cwd ++ [splitUnderscore "Na_pv"], (refs (splitUnderscore "Na_pv")).1) ∈
        (relax_references ["Na_pv"] refs init).2.poscars ∧
     (splitUnderscore "Na_pv" ∉ special_cases →
        init.cwd ++ [splitUnderscore "Na_pv", "oxide"] ∈
          (relax_references ["Na_pv"] refs init).2.dirs ∧
        (init.cwd ++ [splitUnderscore "Na_pv", "oxide"],
          (refs (splitUnderscore "Na_pv")).2) ∈
          (relax_references ["Na_pv"] refs init).2.poscars) ∧
     (splitUnderscore "Na_pv" ∈ special_cases →
        init.cwd ++ [splitUnderscore "Na_pv", "oxide"] ∉ init.dirs →
        init.cwd ++ [splitUnderscore "Na_pv", "oxide"] ∉
          (relax_references ["Na_pv"] refs init).2.dirs)) :=
  ⟨by decide,
   claim_C5 ["Na_pv"] (fun _ => ("mp-el", "mp-ox")) ⟨[], [], [], []⟩ "Na_pv"
     (by decide)⟩

/-- A successful potential search returns the first `'O'`-prefixed entry
of the list. -/
theorem findOxygenPotcar_eq_some (pts : List String) (p : String)
    (h : findOxygenPotcar pts = some p) :
    ∃ l1 l2, pts = l1 ++ p :: l2 ∧ splitUnderscore p = "O" ∧
      ∀ q ∈ l1, splitUnderscore q ≠ "O" := by
  induction pts with
  | nil => simp [findOxygenPotcar] at h
  | cons e rest ih =>
    rw [findOxygenPotcar] at h
    by_cases he : splitUnderscore e = "O"
    · rw [if_pos he] at h
      injection h with h
      exact ⟨[], rest, by simp [h], h ▸ he, by simp⟩
    · rw [if_neg he] at h
      rcases ih h with ⟨l1, l2, hsplit, hp, hl1⟩
      refine ⟨e :: l1, l2, by simp [hsplit], hp, ?_⟩
      intro q hq
      rcases List.mem_cons.1 hq with hq | hq
      · exact hq ▸ he
      · exact hl1 q hq

/-- Claim C7: when no `'O'`-prefixed potential is given,
`relax_references` appends `'O_s'` to the caller's `potcar_types` list,
oxygen is processed as an element of the loop (its `O` directory is set
up), and every oxide POTCAR (the two-type POTCAR writes) uses `'O_s'`
as the oxygen potential; when an `'O'`-prefixed entry is present, the
first such entry is used for every oxide POTCAR and the list is left
unchanged. -/
theorem claim_C7 (pts : List String) (refs : String → String × String)
    (init : FSState) :
    (findOxygenPotcar pts = none →
      (relax_references pts refs init).1 = pts ++ ["O_s"] ∧
      init.cwd ++ ["O"] ∈ (relax_references pts refs init).2.dirs ∧
      (∀ r ∈ (relax_references pts refs init).2.potcars, r ∉ init.potcars →
        r.2.length = 2 → r.2.getLast? = some "O_s")) ∧
    (∀ p, findOxygenPotcar pts = some p →
      (relax_references pts refs init).1 = pts ∧
      (∃ l1 l2, pts = l1 ++ p :: l2 ∧ splitUnderscore p = "O" ∧
        ∀ q ∈ l1, splitUnderscore q ≠ "O") ∧
      (∀ r ∈ (relax_references pts refs init).2.potcars, r ∉ init.potcars →
        r.2.length = 2 → r.2.getLast? = some p)) := by
  have potcarShape : ∀ (op : String) (L : List String),
      ∀ r ∈ (relaxLoop refs op L init).potcars, r ∉ init.potcars →
        r.2.length = 2 → r.2.getLast? = some op := by
    intro op L r hr hnew hlen
    rcases (mem_relaxLoop_potcars refs op L init r).1 hr with
      h | ⟨e, _, h | ⟨_, h⟩⟩
    · exact absurd h hnew
    · rw [h] at hlen; simp at hlen
    · rw [h]; rfl
  constructor
  · intro hfind
    have hOs : splitUnderscore "O_s" = "O" := by decide
    refine ⟨by simp [relax_references, hfind], ?_, ?_⟩
    · have : init.cwd ++ [splitUnderscore "O_s"] ∈
          (relaxLoop refs "O_s" (pts ++ ["O_s"]) init).dirs :=
        (mem_relaxLoop_dirs refs "O_s" (pts ++ ["O_s"]) init _).2
          (Or.inr ⟨"O_s", by simp, Or.inl rfl⟩)
      rw [hOs] at this
      simpa [relax_references, hfind] using this
    · intro r hr
      rw [relax_references, hfind] at hr
      exact potcarShape "O_s" (pts ++ ["O_s"]) r hr
  · intro p hfind
    refine ⟨by simp [relax_references, hfind],
      findOxygenPotcar_eq_some pts p hfind, ?_⟩
    intro r hr
    rw [relax_references, hfind] at hr
    exact potcarShape p pts r hr

/-- Witness for C7: both branches at concrete inputs — `["Fe"]` has no
oxygen entry, `["O_s", "Fe"]` has one. -/
theorem claim_C7_witness :
    ((relax_references ["Fe"] (fun _ => ("e", "o")) ⟨[], [], [], []⟩).1 =
        ["Fe"] ++ ["O_s"] ∧
      (⟨[], [], [], []⟩ : FSState).cwd ++ ["O"] ∈
        (relax_references ["Fe"] (fun _ => ("e", "o"))
          ⟨[], [], [], []⟩).2.dirs ∧
      (∀ r ∈ (relax_references ["Fe"] (fun _ => ("e", "o"))
          ⟨[], [], [], []⟩).2.potcars,
        r ∉ (⟨[], [], [], []⟩ : FSState).potcars →
        r.2.length = 2 → r.2.getLast? = some "O_s")) ∧
    ((relax_references ["O_s", "Fe"] (fun _ => ("e", "o"))
        ⟨[], [], [], []⟩).1 = ["O_s", "Fe"] ∧
      (∃ l1 l2, ["O_s", "Fe"] = l1 ++ "O_s" :: l2 ∧
        splitUnderscore "O_s" = "O" ∧ ∀ q ∈ l1, splitUnderscore q ≠ "O") ∧
      (∀ r ∈ (relax_references ["O_s", "Fe"] (fun _ => ("e", "o"))
          ⟨[], [], [], []⟩).2.potcars,
        r ∉ (⟨[], [], [], []⟩ : FSState).potcars →
        r.2.length = 2 → r.2.getLast? = some "O_s")) :=
  ⟨(claim_C7 ["Fe"] (fun _ => ("e", "o")) ⟨[], [], [], []⟩).1 (by decide),
   (claim_C7 ["O_s", "Fe"] (fun _ => ("e", "o")) ⟨[], [], [], []⟩).2 "O_s"
     (by decide)⟩

/-! ### `get_corrections`

Exceptions are modelled explicitly: each step yields `Except PyExc`.
The element-directory `try` catches every `Exception`; the oxide
`try` catches only `UnboundLocalError` — exactly as in the source. -/

/-- The Python exception classes the module's control flow can
distinguish. -/
inductive PyExc where
  | ioError
  | keyError (k : String)
  | unboundLocalError
  | zeroDivisionError
  | indexError
  | typeError
deriving DecidableEq, Repr

/-- What `get_corrections` reads from a parsed `vasprun.xml`:
`final_energy`, the final structure's composition, and the reduced
integer formula string and factor returned by pymatgen's
`get_integer_formula_and_factor`. -/
structure VasprunData where
  final_energy : ℚ
  composition : List (String × ℚ)
  int_formula : String
  n_formula_units : ℚ
deriving DecidableEq, Repr

/-- A value stored in the `corrections` dict: a number on success, a
marker string for unfinished calculations. -/
inductive CorrVal where
  | val (q : ℚ)
  | str (s : String)
deriving DecidableEq, Repr

/-- The environment of a `get_corrections` run: the subdirectory names
in the working directory, the parse result of `<path>/vasprun.xml` for
each directory path (`none` = absent or unparseable), the
`GAS_CORRECTIONS` table, and the experimental oxide table. -/
structure World where
  listing : List String
  vaspruns : List String → Option VasprunData
  gas : String → Option ℚ
  expTable : List OxideData

/-- The mutable state of a `get_corrections` run. -/
structure CorrState where
  cwd : List String
  mu0 : List (String × ℚ)
  corrections : List (String × CorrVal)
deriving DecidableEq, Repr

/-- The effective number of formula units in the special-elements loop:
doubled when the character `'2'` occurs in the reduced formula string. -/
def nFormula (v : VasprunData) : ℚ :=
  if ('2' : Char) ∈ v.int_formula.toList then v.n_formula_units * 2
  else v.n_formula_units

/-- One iteration of the special-elements loop: `chdir(elt)`, parse
`vasprun.xml` (no `try`, failures propagate), compute
`mu0[elt] = round(final_energy/n_formula_units + GAS_CORRECTIONS[elt], 3)`
with the doubling rule, `chdir('../')`. -/
def specialStep (w : World) (elt : String) (st : CorrState) :
    Except PyExc CorrState :=
  match w.vaspruns (st.cwd ++ [elt]) with
  | none => .error .ioError
  | some v =>
    if nFormula v = 0 then .error .zeroDivisionError
    else
      match w.gas elt with
      | none => .error (.keyError elt)
      | some g =>
        .ok { st with
          mu0 := dictInsert st.mu0 elt (round3 (v.final_energy / nFormula v + g)) }

/-- The special-elements loop. -/
def specialLoop (w : World) : List String → CorrState → Except PyExc CorrState
  | [], st => .ok st
  | e :: rest, st =>
    match specialStep w e st with
    | .ok st' => specialLoop w rest st'
    | .error err => .error err

/-- Models `mu0['O'] += 0.708`: the Wang–Maxisch–Ceder oxide correction,
applied unconditionally after the special-elements loop; a missing
`'O'` key raises `KeyError`. -/
def addOxideCorrection (st : CorrState) : Except PyExc CorrState :=
  match dictLookup st.mu0 "O" with
  | none => .error (.keyError "O")
  | some x => .ok { st with mu0 := dictInsert st.mu0 "O" (x + 0.708) }

/-- The element-directory `try` block (with its `except Exception`
handler, so this step is total): parse `vasprun.xml`, set
`mu0[elt] = round(final_energy/composition[elt], 3)`, subtract the `N`
gas correction when `elt == 'N'`; on any exception record
`'Element not finished'`, keeping whatever was assigned before the
raise. -/
def elementBlock (w : World) (elt : String) (st : CorrState) : CorrState :=
  match w.vaspruns st.cwd with
  | none =>
    { st with corrections :=
        dictInsert st.corrections elt (CorrVal.str "Element not finished") }
  | some v =>
    let nElt := compAmount v.composition elt
    if nElt = 0 then
      { st with corrections :=
          dictInsert st.corrections elt (CorrVal.str "Element not finished") }
    else
      let st1 := { st with
        mu0 := dictInsert st.mu0 elt (round3 (v.final_energy / nElt)) }
      if elt = "N" then
        match w.gas "N" with
        | none =>
          { st1 with corrections :=
              dictInsert st1.corrections elt (CorrVal.str "Element not finished") }
        | some g =>
          { st1 with
            mu0 := dictInsert st1.mu0 elt (round3 (v.final_energy / nElt) - g) }
      else st1

/-- The oxide `try` body: parse the oxide `vasprun.xml`, look up
`mu0[elt]` and `mu0['O']` (a missing key raises `KeyError`), form the
per-formula-unit DFT formation energy, and store
`round((EF_dft - EF_exp)/composition[elt], 3)
  / (composition[elt] * n_formula_units)`. -/
def oxideBlock (w : World) (EF_exp : ℚ) (elt : String) (st : CorrState) :
    Except PyExc CorrState :=
  match w.vaspruns st.cwd with
  | none => .error .ioError
  | some v =>
    let n_fu := v.n_formula_units
    match dictLookup st.mu0 elt with
    | none => .error (.keyError elt)
    | some muElt =>
      match dictLookup st.mu0 "O" with
      | none => .error (.keyError "O")
      | some muO =>
        if n_fu = 0 then .error .zeroDivisionError
        else
          let EF_dft := (v.final_energy
            - muElt * compAmount v.composition elt
            - muO * compAmount v.composition "O") / n_fu
          let nElt := compAmount v.composition elt
          if nElt = 0 then .error .zeroDivisionError
          else
            let c := CorrVal.val
              (round3 ((EF_dft - EF_exp) / nElt) / (nElt * n_fu))
            .ok { st with corrections := dictInsert st.corrections elt c }

/-- The `except UnboundLocalError` handler body: record
`'Oxide not finished'`, or append `'and oxide not finished'` to an
existing (string) entry; `+=` on a numeric entry would raise
`TypeError`. -/
def markOxide (c : List (String × CorrVal)) (elt : String) :
    Except PyExc (List (String × CorrVal)) :=
  match dictLookup c elt with
  | none => .ok (dictInsert c elt (CorrVal.str "Oxide not finished"))
  | some (CorrVal.str s) =>
    .ok (dictInsert c elt (CorrVal.str (s ++ "and oxide not finished")))
  | some (CorrVal.val _) => .error .typeError

/-- The oxide `try` with its handler: only `UnboundLocalError` is
caught; every other exception propagates. -/
def oxideStep (w : World) (EF_exp : ℚ) (elt : String) (st : CorrState) :
    Except PyExc CorrState :=
  match oxideBlock w EF_exp elt st with
  | .ok st' => .ok st'
  | .error e =>
    if e = PyExc.unboundLocalError then
      match markOxide st.corrections elt with
      | .ok c => .ok { st with corrections := c }
      | .error e' => .error e'
    else .error e

/-- One iteration of the main elements loop: look up the experimental
formation energy (outside any `try`), `chdir(elt)`, run the element
block, `chdir('oxide')`, run the oxide step, `chdir('../../')`. -/
def eltStep (w : World) (exps : List (String × ℚ)) (elt : String)
    (st : CorrState) : Except PyExc CorrState :=
  match dictLookup exps elt with
  | none => .error (.keyError elt)
  | some EF_exp =>
    let st1 := elementBlock w elt { st with cwd := st.cwd ++ [elt] }
    Except.map (fun st2 => { st2 with cwd := st2.cwd.dropLast.dropLast })
      (oxideStep w EF_exp elt { st1 with cwd := st1.cwd ++ ["oxide"] })

/-- The main elements loop. -/
def eltsLoop (w : World) (exps : List (String × ℚ)) :
    List String → CorrState → Except PyExc CorrState
  | [], st => .ok st
  | e :: rest, st =>
    match eltStep w exps e st with
    | .ok st' => eltsLoop w exps rest st'
    | .error err => .error err

/-- The procedure `get_corrections`: derive the experimental energies (an `IndexError`
there propagates), split the directory listing into special and
ordinary elements, run the special loop, apply the `0.708` oxide
correction, and run the elements loop. -/
def get_corrections (w : World) (cwd0 : List String) :
    Except PyExc CorrState :=
  match get_experimental_formation_energies w.expTable with
  | none => .error .indexError
  | some exps =>
    let st0 : CorrState := { cwd := cwd0, mu0 := [], corrections := [] }
    match specialLoop w
        (w.listing.filter (fun d => decide (d ∈ special_cases))) st0 with
    | .error e => .error e
    | .ok st1 =>
      match addOxideCorrection st1 with
      | .error e => .error e
      | .ok st2 =>
        eltsLoop w exps
          (w.listing.filter (fun d => decide (d ∉ special_cases))) st2

/-! ### Concrete worlds used as witnesses and counterexamples

All use the oxygen reference `O2` (final energy `-10`, gas correction
`0`, so `mu0['O'] = -5 + 0.708 = -4.292 = -1073/250`) and a `Ti`
reference (element energy `-8`); the experimental table holds one TiO2
row with `S_cmpd = S_elt + 2·38.48`, so its entropy term vanishes and
`EF_exp = -22.06035/22.06035 = -1`.  The `Ti` oxide, when present, is a
`Ti2O5` cell (one formula unit, energy `-36.46`), giving
`EF_dft = -36.46 - 2·(-8) - 5·(-4.292) = 1`. -/

/-- Only an oxygen directory; the elements loop is empty. -/
def wSimple : World := {
  listing := ["O"],
  vaspruns := fun p =>
    if p = ["O"] then some ⟨-10, [("O", 2)], "O2", 1⟩ else none,
  gas := fun s => if s = "O" then some 0 else none,
  expTable := [] }

/-- Oxygen and titanium, with all three vaspruns present. -/
def wOxide : World := {
  listing := ["O", "Ti"],
  vaspruns := fun p =>
    if p = ["O"] then some ⟨-10, [("O", 2)], "O2", 1⟩
    else if p = ["Ti"] then some ⟨-8, [("Ti", 1)], "Ti", 1⟩
    else if p = ["Ti", "oxide"] then
      some ⟨-36.46, [("Ti", 2), ("O", 5)], "Ti2O5", 1⟩
    else none,
  gas := fun s => if s = "O" then some 0 else none,
  expTable := [⟨[("Ti", 1), ("O", 2)], -22.06035, 84.28, 7.32⟩] }

/-- Like `wOxide`, but `Ti/oxide/vasprun.xml` is absent. -/
def wOxideMissing : World := { wOxide with
  vaspruns := fun p =>
    if p = ["O"] then some ⟨-10, [("O", 2)], "O2", 1⟩
    else if p = ["Ti"] then some ⟨-8, [("Ti", 1)], "Ti", 1⟩
    else none }

/-- Like `wOxide`, but `Ti/vasprun.xml` (the pure element) is absent. -/
def wEltMissing : World := { wOxide with
  vaspruns := fun p =>
    if p = ["O"] then some ⟨-10, [("O", 2)], "O2", 1⟩
    else if p = ["Ti", "oxide"] then
      some ⟨-36.46, [("Ti", 2), ("O", 5)], "Ti2O5", 1⟩
    else none }

/-- No oxygen directory at all (only sulfur). -/
def wNoO : World := {
  listing := ["S"],
  vaspruns := fun p =>
    if p = ["S"] then some ⟨-5, [("S", 1)], "S", 1⟩ else none,
  gas := fun s => if s = "S" then some 0 else none,
  expTable := [] }

/-- Claim C3 concerns the oxide `try` handler.  The handler catches only
`UnboundLocalError`, but no name in the oxide block is read before being
assigned, so the block can raise `IOError`, `KeyError` or
`ZeroDivisionError` — never `UnboundLocalError`.  The handler (and its
`'Oxide not finished'` marker) is dead code. -/
theorem oxideBlock_no_unboundLocalError (w : World) (EF_exp : ℚ)
    (elt : String) (st : CorrState) :
    oxideBlock w EF_exp elt st ≠ Except.error PyExc.unboundLocalError := by
  unfold oxideBlock
  cases w.vaspruns st.cwd with
  | none => simp
  | some v =>
    cases dictLookup st.mu0 elt with
    | none => simp
    | some muElt =>
      cases dictLookup st.mu0 "O" with
      | none => simp
      | some muO =>
        by_cases h1 : v.n_formula_units = 0
        · simp [h1]
        · by_cases h2 : compAmount v.composition elt = 0 <;> simp [h1, h2]

/-- Claim C3 (the code, at the failing input): with `Ti/oxide/vasprun.xml`
absent, `Vasprun` raises `IOError` inside the oxide `try`; the handler
catches only `UnboundLocalError`, so the exception propagates out of
`get_corrections` instead of being recorded as `'Oxide not finished'`. -/
theorem claim_C3 :
    get_corrections wOxideMissing [] = Except.error PyExc.ioError := by
  simp [get_corrections, wOxideMissing, wOxide,
    get_experimental_formation_energies, formationLoop, firstNonOxygen,
    nonOxygen, formationEnergy, oxygen_entropy, specialLoop, specialStep,
    addOxideCorrection, eltsLoop, eltStep, elementBlock, oxideBlock,
    oxideStep, markOxide, dictLookup, dictInsert, dictKeys, round3,
    nFormula, special_cases, compAmount, Except.map, List.dropLast]

/-- Claim C4: when reading the pure-element `vasprun.xml` raises, the
`except Exception` handler records `'Element not finished'`, `mu0` is
left untouched (no entry for the element), and the iteration still
proceeds into the `oxide` subdirectory. -/
theorem claim_C4 (w : World) (exps : List (String × ℚ)) (elt : String)
    (st : CorrState) (EF_exp : ℚ)
    (hvr : w.vaspruns (st.cwd ++ [elt]) = none)
    (hexp : dictLookup exps elt = some EF_exp) :
    elementBlock w elt { st with cwd := st.cwd ++ [elt] } =
      { st with
        cwd := st.cwd ++ [elt],
        corrections := dictInsert st.corrections elt
          (CorrVal.str "Element not finished") } ∧
    (elementBlock w elt { st with cwd := st.cwd ++ [elt] }).mu0 = st.mu0 ∧
    eltStep w exps elt st =
      Except.map (fun st2 => { st2 with cwd := st2.cwd.dropLast.dropLast })
        (oxideStep w EF_exp elt
          { st with
            cwd := st.cwd ++ [elt, "oxide"],
            corrections := dictInsert st.corrections elt
              (CorrVal.str "Element not finished") }) := by
  have hblock : elementBlock w elt { st with cwd := st.cwd ++ [elt] } =
      { st with
        cwd := st.cwd ++ [elt],
        corrections := dictInsert st.corrections elt
          (CorrVal.str "Element not finished") } := by
    unfold elementBlock
    rw [show ({ st with cwd := st.cwd ++ [elt] } : CorrState).cwd
      = st.cwd ++ [elt] from rfl, hvr]
  refine ⟨hblock, by rw [hblock], ?_⟩
  have hcwd : (st.cwd ++ [elt]) ++ ["oxide"] = st.cwd ++ [elt, "oxide"] := by
    simp
  simp only [eltStep, hexp]
  rw [hblock]
  simp only [hcwd]

/-- Witness for C4 in the world where `Ti/vasprun.xml` is missing but
`Ti/oxide/vasprun.xml` parses. -/
theorem claim_C4_witness :
    elementBlock wEltMissing "Ti"
        { cwd := [] ++ ["Ti"], mu0 := [("O", -1073/250)], corrections := [] } =
      { cwd := [] ++ ["Ti"], mu0 := [("O", -1073/250)],
        corrections := dictInsert [] "Ti"
          (CorrVal.str "Element not finished") } ∧
    (elementBlock wEltMissing "Ti"
        { cwd := [] ++ ["Ti"], mu0 := [("O", -1073/250)],
          corrections := [] }).mu0 = [("O", -1073/250)] ∧
    eltStep wEltMissing [("Ti", -1)] "Ti"
        ⟨[], [("O", -1073/250)], []⟩ =
      Except.map (fun st2 => { st2 with cwd := st2.cwd.dropLast.dropLast })
        (oxideStep wEltMissing (-1) "Ti"
          { cwd := [] ++ ["Ti", "oxide"], mu0 := [("O", -1073/250)],
            corrections := dictInsert [] "Ti"
              (CorrVal.str "Element not finished") }) :=
  claim_C4 wEltMissing [("Ti", -1)] "Ti" ⟨[], [("O", -1073/250)], []⟩ (-1)
    (by simp [wEltMissing, wOxide]) (by simp [dictLookup])

/-- The value claim C2 asserts for `corrections[elt]` (stated from the
claim's words, for comparison with the code): the formation-energy
difference divided by the per-formula-unit element count, rounded to
three decimals as the final operation. -/
def claimedCorrectionC2 (EF_dft EF_exp nElt_per_fu : ℚ) : ℚ :=
  round3 ((EF_dft - EF_exp) / nElt_per_fu)

/-- Counterexample to claim C2 as stated.  In the `wOxide` run the oxide
is a one-formula-unit `Ti2O5` cell: `EF_dft = 1`, `EF_exp = -1`, and
titanium's per-formula-unit count is `2`, so the claim's value is
`round((1 - (-1))/2, 3) = 1`; the code stores
`round((1 - (-1))/2, 3) / (2·1) = 1/2`. -/
theorem claim_C2_counterexample :
    get_corrections wOxide [] = Except.ok
      ⟨[], [("O", -1073/250), ("Ti", -8)], [("Ti", CorrVal.val (1/2))]⟩ ∧
    claimedCorrectionC2 1 (-1) 2 = 1 ∧ (1/2 : ℚ) ≠ 1 := by
  refine ⟨?_, ?_, by norm_num⟩
  · simp [get_corrections, wOxide, get_experimental_formation_energies,
      formationLoop, firstNonOxygen, nonOxygen, formationEnergy,
      oxygen_entropy, specialLoop, specialStep, addOxideCorrection,
      eltsLoop, eltStep, elementBlock, oxideBlock, oxideStep, markOxide,
      dictLookup, dictInsert, dictKeys, round3, nFormula, special_cases,
      compAmount, Except.map, List.dropLast]
    norm_num
  · norm_num [claimedCorrectionC2, round3]

/-- Claim C2, amended: on the success path the stored correction is
`round((EF_dft - EF_exp)/c, 3) / (c * n_formula_units)` where `c` is the
element's amount in the oxide's final structure (not per formula unit)
and `EF_dft` the per-formula-unit DFT formation energy — i.e. the
rounded quotient is further divided by `c * n_formula_units`. -/
theorem claim_C2 (w : World) (EF_exp : ℚ) (elt : String) (st : CorrState)
    (v : VasprunData) (muElt muO : ℚ)
    (hv : w.vaspruns st.cwd = some v)
    (hmuElt : dictLookup st.mu0 elt = some muElt)
    (hmuO : dictLookup st.mu0 "O" = some muO)
    (hfu : v.n_formula_units ≠ 0)
    (hne : compAmount v.composition elt ≠ 0) :
    oxideBlock w EF_exp elt st = Except.ok { st with
      corrections := dictInsert st.corrections elt (CorrVal.val
        (round3 (((v.final_energy - muElt * compAmount v.composition elt
            - muO * compAmount v.composition "O") / v.n_formula_units
            - EF_exp) / compAmount v.composition elt)
         / (compAmount v.composition elt * v.n_formula_units))) } := by
  simp [oxideBlock, hv, hmuElt, hmuO, hfu, hne]

/-- Witness for the amended C2 at the `wOxide` oxide directory. -/
theorem claim_C2_witness :
    oxideBlock wOxide (-1) "Ti"
        ⟨["Ti", "oxide"], [("O", -1073/250), ("Ti", -8)], []⟩ =
      Except.ok {
        cwd := ["Ti", "oxide"],
        mu0 := [("O", -1073/250), ("Ti", -8)],
        corrections := dictInsert [] "Ti" (CorrVal.val
          (round3 ((((-36.46 : ℚ)
              - (-8) * compAmount [("Ti", 2), ("O", 5)] "Ti"
              - (-1073/250) * compAmount [("Ti", 2), ("O", 5)] "O") / 1
              - (-1)) / compAmount [("Ti", 2), ("O", 5)] "Ti")
           / (compAmount [("Ti", 2), ("O", 5)] "Ti" * 1))) } :=
  claim_C2 wOxide (-1) "Ti"
    ⟨["Ti", "oxide"], [("O", -1073/250), ("Ti", -8)], []⟩
    ⟨-36.46, [("Ti", 2), ("O", 5)], "Ti2O5", 1⟩ (-8) (-1073/250)
    (by simp [wOxide]) (by simp [dictLookup]) (by simp [dictLookup])
    (by norm_num) (by norm_num [compAmount, dictLookup])

/-- A successful special-loop iteration: the vasprun parsed, the
divisor was nonzero, the gas correction existed, and the only state
change is the `mu0` insertion. -/
theorem specialStep_ok (w : World) (e : String) (st st' : CorrState)
    (h : specialStep w e st = .ok st') :
    ∃ v g, w.vaspruns (st.cwd ++ [e]) = some v ∧ nFormula v ≠ 0 ∧
      w.gas e = some g ∧
      st' = { st with
        mu0 := dictInsert st.mu0 e
          (round3 (v.final_energy / nFormula v + g)) } := by
  cases hv : w.vaspruns (st.cwd ++ [e]) with
  | none => simp [specialStep, hv] at h
  | some v =>
    by_cases hn : nFormula v = 0
    · simp [specialStep, hv, hn] at h
    · cases hg : w.gas e with
      | none => simp [specialStep, hv, hn, hg] at h
      | some g =>
        simp only [specialStep, hv, hg, if_neg hn, Except.ok.injEq] at h
        exact ⟨v, g, rfl, hn, rfl, h.symm⟩

/-- Corollary: a successful step keeps `cwd` and `corrections` and only
inserts one `mu0` binding. -/
theorem specialStep_ok_shape (w : World) (e : String) (st st' : CorrState)
    (h : specialStep w e st = .ok st') :
    st'.cwd = st.cwd ∧ st'.corrections = st.corrections ∧
      ∃ q, st'.mu0 = dictInsert st.mu0 e q := by
  obtain ⟨v, g, _, _, _, hshape⟩ := specialStep_ok w e st st' h
  subst hshape
  exact ⟨rfl, rfl, _, rfl⟩

/-- A successful special loop keeps `cwd` and `corrections`. -/
theorem specialLoop_ok_frame (w : World) (L : List String)
    (st st' : CorrState) (h : specialLoop w L st = .ok st') :
    st'.cwd = st.cwd ∧ st'.corrections = st.corrections := by
  induction L generalizing st with
  | nil =>
    simp only [specialLoop, Except.ok.injEq] at h
    rw [← h]
    exact ⟨rfl, rfl⟩
  | cons e rest ih =>
    simp only [specialLoop] at h
    cases hstep : specialStep w e st with
    | error err => simp [hstep] at h
    | ok st1 =>
      rw [hstep] at h
      obtain ⟨hc, hcorr, _⟩ := specialStep_ok_shape w e st st1 hstep
      obtain ⟨hc', hcorr'⟩ := ih st1 h
      exact ⟨hc'.trans hc, hcorr'.trans hcorr⟩

/-- Keys present in `mu0` after a successful special loop came from the
initial state or from the processed list. -/
theorem specialLoop_ok_keys_sub (w : World) (L : List String)
    (st st' : CorrState) (h : specialLoop w L st = .ok st') :
    ∀ x, x ∈ dictKeys st'.mu0 → x ∈ dictKeys st.mu0 ∨ x ∈ L := by
  induction L generalizing st with
  | nil =>
    simp only [specialLoop, Except.ok.injEq] at h
    rw [← h]
    exact fun x hx => Or.inl hx
  | cons e rest ih =>
    simp only [specialLoop] at h
    cases hstep : specialStep w e st with
    | error err => simp [hstep] at h
    | ok st1 =>
      rw [hstep] at h
      obtain ⟨_, _, q, hmu⟩ := specialStep_ok_shape w e st st1 hstep
      intro x hx
      rcases ih st1 h x hx with hx1 | hx1
      · rw [hmu] at hx1
        rcases (mem_dictKeys_dictInsert _ _ _ _).1 hx1 with hx2 | hx2
        · exact Or.inl hx2
        · exact Or.inr (hx2 ▸ List.mem_cons_self e rest)
      · exact Or.inr (List.mem_cons_of_mem e hx1)

/-- The `mu0` keys only accumulate through the special loop. -/
theorem specialLoop_ok_keys_mono (w : World) (L : List String)
    (st st' : CorrState) (h : specialLoop w L st = .ok st') :
    ∀ x, x ∈ dictKeys st.mu0 → x ∈ dictKeys st'.mu0 := by
  induction L generalizing st with
  | nil =>
    simp only [specialLoop, Except.ok.injEq] at h
    rw [← h]
    exact fun x hx => hx
  | cons e rest ih =>
    simp only [specialLoop] at h
    cases hstep : specialStep w e st with
    | error err => simp [hstep] at h
    | ok st1 =>
      rw [hstep] at h
      obtain ⟨_, _, q, hmu⟩ := specialStep_ok_shape w e st st1 hstep
      intro x hx
      refine ih st1 h x ?_
      rw [hmu]
      exact (mem_dictKeys_dictInsert _ _ _ _).2 (Or.inl hx)

/-- Every processed special element ends up with a `mu0` entry. -/
theorem specialLoop_ok_mem (w : World) (L : List String)
    (st st' : CorrState) (h : specialLoop w L st = .ok st') :
    ∀ e ∈ L, e ∈ dictKeys st'.mu0 := by
  induction L generalizing st with
  | nil => intro e he; simp at he
  | cons e rest ih =>
    simp only [specialLoop] at h
    cases hstep : specialStep w e st with
    | error err => simp [hstep] at h
    | ok st1 =>
      rw [hstep] at h
      obtain ⟨_, _, q, hmu⟩ := specialStep_ok_shape w e st st1 hstep
      intro x hx
      rcases List.mem_cons.1 hx with hx1 | hx1
      · subst hx1
        refine specialLoop_ok_keys_mono w rest st1 st' h x ?_
        rw [hmu]
        exact (mem_dictKeys_dictInsert _ _ _ _).2 (Or.inr rfl)
      · exact ih st1 h x hx1

/-- A successful special loop over a list avoiding `x` does not change
`x`'s `mu0` binding. -/
theorem specialLoop_ok_lookup_preserved (w : World) (L : List String)
    (st st' : CorrState) (x : String) (hx : x ∉ L)
    (h : specialLoop w L st = .ok st') :
    dictLookup st'.mu0 x = dictLookup st.mu0 x := by
  induction L generalizing st with
  | nil =>
    simp only [specialLoop, Except.ok.injEq] at h
    rw [← h]
  | cons e rest ih =>
    simp only [specialLoop] at h
    cases hstep : specialStep w e st with
    | error err => simp [hstep] at h
    | ok st1 =>
      rw [hstep] at h
      obtain ⟨_, _, q, hmu⟩ := specialStep_ok_shape w e st st1 hstep
      have hxe : e ≠ x := fun he => hx (he ▸ List.mem_cons_self e rest)
      have hxrest : x ∉ rest := fun hr => hx (List.mem_cons_of_mem e hr)
      rw [ih st1 hxrest h, hmu, dictLookup_dictInsert_ne _ _ _ _ hxe]

/-- Claim C9: in the special-elements loop the formula-unit divisor is
doubled exactly when the character `'2'` occurs in the reduced integer
formula string, and
`mu0[elt] = round(final_energy/n + GAS_CORRECTIONS[elt], 3)`. -/
theorem claim_C9 (w : World) (L : List String) (elt : String)
    (st st' : CorrState) (v : VasprunData) (g : ℚ)
    (hnd : L.Nodup) (hmem : elt ∈ L)
    (hok : specialLoop w L st = .ok st')
    (hv : w.vaspruns (st.cwd ++ [elt]) = some v)
    (hg : w.gas elt = some g) :
    dictLookup st'.mu0 elt =
      some (round3 (v.final_energy /
        (if ('2' : Char) ∈ v.int_formula.toList then v.n_formula_units * 2
         else v.n_formula_units) + g)) := by
  induction L generalizing st with
  | nil => simp at hmem
  | cons e rest ih =>
    simp only [specialLoop] at hok
    cases hstep : specialStep w e st with
    | error err => simp [hstep] at hok
    | ok st1 =>
      rw [hstep] at hok
      obtain ⟨v1, g1, hv1, hn1, hg1, hshape⟩ := specialStep_ok w e st st1 hstep
      simp only [List.nodup_cons] at hnd
      rcases List.mem_cons.1 hmem with he | he
      · subst he
        have hvv : v1 = v := by rw [hv1] at hv; injection hv
        have hgg : g1 = g := by rw [hg1] at hg; injection hg
        subst hvv; subst hgg
        rw [specialLoop_ok_lookup_preserved w rest st1 st' elt hnd.1 hok,
          hshape]
        show dictLookup (dictInsert st.mu0 elt _) elt = _
        rw [dictLookup_dictInsert_self]
        rfl
      · have hcwd : st1.cwd = st.cwd := by rw [hshape]
        exact ih st1 hnd.2 he hok (hcwd ▸ hv)

/-- Witness for C9: oxygen relaxed as an `O2` cell (`'2'` in the
formula doubles the divisor): `mu0['O'] = round(-10/2 + 0, 3) = -5`. -/
theorem claim_C9_witness :
    dictLookup
      (CorrState.mu0 ⟨[], [("O", -5)], []⟩) "O" =
      some (round3 ((-10 : ℚ) /
        (if ('2' : Char) ∈ "O2".toList then (1 : ℚ) * 2 else 1) + 0)) :=
  claim_C9 wSimple ["O"] "O" ⟨[], [], []⟩ ⟨[], [("O", -5)], []⟩
    ⟨-10, [("O", 2)], "O2", 1⟩ 0 (by simp) (by simp)
    (by simp [specialLoop, specialStep, wSimple, nFormula, round3,
      dictInsert]
        norm_num)
    (by simp [wSimple]) (by simp [wSimple])

/-- Claim C6: `mu0['O'] += 0.708` runs unconditionally after the
special-elements loop.  If the listing has no `'O'` directory (and the
special loop finished), `mu0` has no `'O'` key and `get_corrections`
raises `KeyError` before any element correction is computed; if an `'O'`
directory was processed, the `KeyError` branch is unreachable. -/
theorem claim_C6 (w : World) (cwd0 : List String) (exps : List (String × ℚ))
    (st1 : CorrState)
    (hexps : get_experimental_formation_energies w.expTable = some exps)
    (hloop : specialLoop w
      (w.listing.filter (fun d => decide (d ∈ special_cases)))
      { cwd := cwd0, mu0 := [], corrections := [] } = .ok st1) :
    ("O" ∉ w.listing →
      get_corrections w cwd0 = Except.error (PyExc.keyError "O")) ∧
    ("O" ∈ w.listing → dictLookup st1.mu0 "O" ≠ none ∧
      ∃ st2, addOxideCorrection st1 = Except.ok st2) := by
  constructor
  · intro hO
    have hOkeys : "O" ∉ dictKeys st1.mu0 := by
      intro hk
      rcases specialLoop_ok_keys_sub w _ _ _ hloop "O" hk with h1 | h1
      · simp [dictKeys] at h1
      · exact hO (List.mem_of_mem_filter h1)
    have hlook : dictLookup st1.mu0 "O" = none :=
      (dictLookup_eq_none_iff _ _).2 hOkeys
    have hadd : addOxideCorrection st1 = .error (.keyError "O") := by
      simp [addOxideCorrection, hlook]
    simp only [get_corrections, hexps, hloop, hadd]
  · intro hO
    have hfil : "O" ∈ w.listing.filter (fun d => decide (d ∈ special_cases)) := by
      simp [List.mem_filter, hO, special_cases]
    have hkey : "O" ∈ dictKeys st1.mu0 :=
      specialLoop_ok_mem w _ _ _ hloop "O" hfil
    have hlook : dictLookup st1.mu0 "O" ≠ none := by
      intro hnone
      exact (dictLookup_eq_none_iff _ _).1 hnone hkey
    refine ⟨hlook, ?_⟩
    cases hl : dictLookup st1.mu0 "O" with
    | none => exact absurd hl hlook
    | some x =>
      exact ⟨{ st1 with mu0 := dictInsert st1.mu0 "O" (x + 0.708) },
        by simp [addOxideCorrection, hl]⟩

/-- Witness for C6: a working directory with only an `S` reference (no
`O`): the call fails with `KeyError('O')`. -/
theorem claim_C6_witness :
    get_corrections wNoO [] = Except.error (PyExc.keyError "O") :=
  (claim_C6 wNoO [] [] ⟨[], [("S", -5)], []⟩ rfl
    (by
      simp [specialLoop, specialStep, wNoO, nFormula, round3, dictInsert,
        special_cases]
      norm_num)).1 (by decide)

/-- The element block never changes the working directory. -/
theorem elementBlock_cwd (w : World) (elt : String) (st : CorrState) :
    (elementBlock w elt st).cwd = st.cwd := by
  unfold elementBlock
  cases w.vaspruns st.cwd with
  | none => rfl
  | some v =>
    by_cases h0 : compAmount v.composition elt = 0
    · simp [h0]
    · by_cases hN : elt = "N"
      · subst hN
        cases w.gas "N" <;> simp [h0]
      · simp [h0, hN]

/-- A successful oxide `try` body only touches `corrections`. -/
theorem oxideBlock_ok_shape (w : World) (ef : ℚ) (elt : String)
    (st st' : CorrState) (h : oxideBlock w ef elt st = .ok st') :
    ∃ c, st' = { st with corrections := c } := by
  cases hv : w.vaspruns st.cwd with
  | none => simp [oxideBlock, hv] at h
  | some v =>
    cases hmu : dictLookup st.mu0 elt with
    | none => simp [oxideBlock, hv, hmu] at h
    | some muElt =>
      cases hmuO : dictLookup st.mu0 "O" with
      | none => simp [oxideBlock, hv, hmu, hmuO] at h
      | some muO =>
        by_cases h1 : v.n_formula_units = 0
        · simp [oxideBlock, hv, hmu, hmuO, h1] at h
        · by_cases h2 : compAmount v.composition elt = 0
          · simp [oxideBlock, hv, hmu, hmuO, h1, h2] at h
          · simp only [oxideBlock, hv, hmu, hmuO, if_neg h1, if_neg h2,
              Except.ok.injEq] at h
            exact ⟨_, h.symm⟩

/-- A successful oxide step (body or handler) only touches
`corrections`. -/
theorem oxideStep_ok_shape (w : World) (ef : ℚ) (elt : String)
    (st st' : CorrState) (h : oxideStep w ef elt st = .ok st') :
    ∃ c, st' = { st with corrections := c } := by
  cases hb : oxideBlock w ef elt st with
  | ok st1 =>
    simp only [oxideStep, hb, Except.ok.injEq] at h
    obtain ⟨c, hc⟩ := oxideBlock_ok_shape w ef elt st st1 hb
    exact ⟨c, h ▸ hc⟩
  | error e =>
    by_cases he : e = PyExc.unboundLocalError
    · subst he
      cases hm : markOxide st.corrections elt with
      | ok c =>
        simp only [oxideStep, hb, hm, eq_self_iff_true, if_true,
          Except.ok.injEq] at h
        exact ⟨c, h.symm⟩
      | error e' => simp [oxideStep, hb, hm] at h
    · simp [oxideStep, hb, he] at h

/-- An `Except.map` hitting `ok` came from `ok`. -/
theorem except_map_ok {ε α β : Type} (f : α → β) (r : Except ε α) (b : β)
    (h : Except.map f r = .ok b) : ∃ a, r = .ok a ∧ b = f a := by
  cases r with
  | error e => simp [Except.map] at h
  | ok a =>
    simp only [Except.map, Except.ok.injEq] at h
    exact ⟨a, rfl, h.symm⟩

/-- A successful `0.708` update only touches `mu0`. -/
theorem addOxideCorrection_ok_shape (st st2 : CorrState)
    (h : addOxideCorrection st = .ok st2) : ∃ m, st2 = { st with mu0 := m } := by
  cases hl : dictLookup st.mu0 "O" with
  | none => simp [addOxideCorrection, hl] at h
  | some x =>
    simp only [addOxideCorrection, hl, Except.ok.injEq] at h
    exact ⟨_, h.symm⟩

/-- A successful main-loop iteration returns to the directory it
started in. -/
theorem eltStep_ok_cwd (w : World) (exps : List (String × ℚ)) (elt : String)
    (st st2 : CorrState) (h : eltStep w exps elt st = .ok st2) :
    st2.cwd = st.cwd := by
  cases hexp : dictLookup exps elt with
  | none => simp [eltStep, hexp] at h
  | some ef =>
    simp only [eltStep, hexp] at h
    obtain ⟨st3, hst3, hmap⟩ := except_map_ok _ _ _ h
    obtain ⟨c, hc⟩ := oxideStep_ok_shape _ _ _ _ _ hst3
    rw [hmap, hc]
    show ((elementBlock w elt { st with cwd := st.cwd ++ [elt] }).cwd
      ++ ["oxide"]).dropLast.dropLast = st.cwd
    rw [elementBlock_cwd]
    show ((st.cwd ++ [elt]) ++ ["oxide"]).dropLast.dropLast = st.cwd
    simp

/-- A successful main loop returns to the directory it started in. -/
theorem eltsLoop_ok_cwd (w : World) (exps : List (String × ℚ))
    (L : List String) (st st' : CorrState)
    (h : eltsLoop w exps L st = .ok st') : st'.cwd = st.cwd := by
  induction L generalizing st with
  | nil =>
    simp only [eltsLoop, Except.ok.injEq] at h
    rw [← h]
  | cons e rest ih =>
    simp only [eltsLoop] at h
    cases hstep : eltStep w exps e st with
    | error err => simp [hstep] at h
    | ok st1 =>
      rw [hstep] at h
      rw [ih st1 h, eltStep_ok_cwd w exps e st st1 hstep]

/-- A normal return of `get_corrections` ends in the starting
directory. -/
theorem get_corrections_ok_cwd (w : World) (cwd0 : List String)
    (st : CorrState) (h : get_corrections w cwd0 = .ok st) :
    st.cwd = cwd0 := by
  cases hg : get_experimental_formation_energies w.expTable with
  | none => simp [get_corrections, hg] at h
  | some exps =>
    simp only [get_corrections, hg] at h
    cases hsl : specialLoop w
        (w.listing.filter (fun d => decide (d ∈ special_cases)))
        { cwd := cwd0, mu0 := [], corrections := [] } with
    | error e => rw [hsl] at h; simp at h
    | ok st1 =>
      simp only [hsl] at h
      cases hadd : addOxideCorrection st1 with
      | error e => simp [hadd] at h
      | ok st2 =>
        simp only [hadd] at h
        obtain ⟨m, hm⟩ := addOxideCorrection_ok_shape st1 st2 hadd
        have h1 : st1.cwd = cwd0 :=
          (specialLoop_ok_frame w _ _ _ hsl).1
        have h2 : st2.cwd = st1.cwd := by rw [hm]
        rw [eltsLoop_ok_cwd w exps _ st2 st h, h2, h1]

/-- Claim C8: both procedures leave the working directory unchanged on
normal return — every `chdir` in is matched by a `chdir` out. -/
theorem claim_C8 :
    (∀ (pts : List String) (refs : String → String × String)
      (init : FSState), ((relax_references pts refs init).2).cwd = init.cwd) ∧
    (∀ (w : World) (cwd0 : List String) (st : CorrState),
      get_corrections w cwd0 = .ok st → st.cwd = cwd0) := by
  constructor
  · intro pts refs init
    unfold relax_references
    cases findOxygenPotcar pts <;> simp [relaxLoop_cwd]
  · exact fun w cwd0 st h => get_corrections_ok_cwd w cwd0 st h

/-- Witness for C8: a concrete `relax_references` layout run and the
concrete successful `wSimple` corrections run both end where they
started. -/
theorem claim_C8_witness :
    ((relax_references ["Fe"] (fun _ => ("e", "o"))
      ⟨["start"], [], [], []⟩).2).cwd = ["start"] ∧
    CorrState.cwd ⟨[], [("O", -1073/250)], []⟩ = ([] : List String) :=
  ⟨claim_C8.1 ["Fe"] (fun _ => ("e", "o")) ⟨["start"], [], [], []⟩,
   claim_C8.2 wSimple [] ⟨[], [("O", -1073/250)], []⟩
     (by
       simp [get_corrections, wSimple, get_experimental_formation_energies,
         formationLoop, specialLoop, specialStep, addOxideCorrection,
         eltsLoop, dictLookup, dictInsert, round3, nFormula, special_cases]
       norm_num)⟩

/-! ### Termination (claim C10)

Each loop is given a fuel-indexed variant that gives up (`none`) when
the fuel runs out; fuel equal to the list length always suffices, which
is the content of "iteration is structural over finite lists". -/

/-- Fuel-indexed `formationLoop`. -/
def formationLoopFuel : Nat → List OxideData → List (String × ℚ) →
    Option (Option (List (String × ℚ)))
  | _, [], acc => some (some acc)
  | 0, _ :: _, _ => none
  | fuel + 1, d :: rest, acc =>
    match firstNonOxygen d.composition with
    | none => some none
    | some elt =>
      formationLoopFuel fuel rest (dictInsert acc elt (formationEnergy d elt))

/-- Fuel-indexed `relaxLoop`. -/
def relaxLoopFuel (refs : String → String × String) (op : String) :
    Nat → List String → FSState → Option FSState
  | _, [], st => some st
  | 0, _ :: _, _ => none
  | fuel + 1, e :: rest, st =>
    relaxLoopFuel refs op fuel rest (processElement refs op e st)

/-- Fuel-indexed `specialLoop`. -/
def specialLoopFuel (w : World) :
    Nat → List String → CorrState → Option (Except PyExc CorrState)
  | _, [], st => some (.ok st)
  | 0, _ :: _, _ => none
  | fuel + 1, e :: rest, st =>
    match specialStep w e st with
    | .ok st' => specialLoopFuel w fuel rest st'
    | .error err => some (.error err)

/-- Fuel-indexed `eltsLoop`. -/
def eltsLoopFuel (w : World) (exps : List (String × ℚ)) :
    Nat → List String → CorrState → Option (Except PyExc CorrState)
  | _, [], st => some (.ok st)
  | 0, _ :: _, _ => none
  | fuel + 1, e :: rest, st =>
    match eltStep w exps e st with
    | .ok st' => eltsLoopFuel w exps fuel rest st'
    | .error err => some (.error err)

/-- Claim C10: every loop of the three procedures terminates within as
many iterations as its (finite) input list has elements: with fuel equal
to the list length, each fuel-indexed loop returns (`some`) the value of
the structural loop. -/
theorem claim_C10 :
    (∀ (data : List OxideData) (acc : List (String × ℚ)),
      formationLoopFuel data.length data acc =
        some (formationLoop data acc)) ∧
    (∀ (refs : String → String × String) (op : String) (L : List String)
      (st : FSState),
      relaxLoopFuel refs op L.length L st = some (relaxLoop refs op L st)) ∧
    (∀ (w : World) (L : List String) (st : CorrState),
      specialLoopFuel w L.length L st = some (specialLoop w L st)) ∧
    (∀ (w : World) (exps : List (String × ℚ)) (L : List String)
      (st : CorrState),
      eltsLoopFuel w exps L.length L st = some (eltsLoop w exps L st)) := by
  refine ⟨?_, ?_, ?_, ?_⟩
  · intro data
    induction data with
    | nil => intro acc; rfl
    | cons d rest ih =>
      intro acc
      simp only [List.length_cons, formationLoopFuel, formationLoop]
      cases firstNonOxygen d.composition with
      | none => rfl
      | some elt => exact ih _
  · intro refs op L
    induction L with
    | nil => intro st; rfl
    | cons e rest ih =>
      intro st
      simp only [List.length_cons, relaxLoopFuel, relaxLoop]
      exact ih _
  · intro w L
    induction L with
    | nil => intro st; rfl
    | cons e rest ih =>
      intro st
      simp only [List.length_cons, specialLoopFuel, specialLoop]
      cases specialStep w e st with
      | ok st' => exact ih _
      | error err => rfl
  · intro w exps L
    induction L with
    | nil => intro st; rfl
    | cons e rest ih =>
      intro st
      simp only [List.length_cons, eltsLoopFuel, eltsLoop]
      cases eltStep w exps e st with
      | ok st' => exact ih _
      | error err => rfl

end Pourbaix
